import Mathlib

/-!
Shallow embedding of the sinogram core pipeline (`src/sino_funct.py`, with an
identical second copy in `src/src/sinogram.py`): record construction and
validation (`Sinogram.__init__`), descriptive rendering (`Sinogram.__str__`),
symmetric cropping (`crop`), angular unshuffling (`unshuffle`), leaf-open-time
histogram binning (`get_histogram`), and modulation-factor computation
(`get_mod_factor`).  Leaf-open-time values (Python floats) are embedded as
rationals; numpy arrays as rectangular lists of rows; the metadata dict as an
insertion-ordered association list.
-/

namespace Sino

/-- A metadata value: the code stores booleans (the derived `cropped` flag)
and strings (`document_id`) in the `meta` dict. -/
inductive MVal where
  | b (v : Bool)
  | s (v : String)
deriving DecidableEq

/-- The `meta` dict: an insertion-ordered mapping from string keys to values,
as a Python `dict` is. -/
abbrev Meta := List (String × MVal)

/-- Python dict assignment `m[key] = v`: replace the value in place if the key
is present (keeping insertion order), otherwise append the new binding. -/
def dictSet : Meta → String → MVal → Meta
  | [], key, v => [(key, v)]
  | (k, w) :: rest, key, v =>
      if k = key then (key, v) :: rest else (k, w) :: dictSet rest key v

/-- Python dict lookup `m[key]` (as an `Option`). -/
def dictGet : Meta → String → Option MVal
  | [], _ => none
  | (k, w) :: rest, key => if k = key then some w else dictGet rest key

/-- A 2-D numeric array (`np.ndarray` of shape `(rows, cols)`), row-major:
`data` is the list of rows, every row of length `cols`.  The number of rows
(`shape[0]`, the projection count) is `data.length`. -/
structure Arr2 where
  cols : ℕ
  data : List (List ℚ)
  rect : ∀ p ∈ data, p.length = cols

/-- A constructed `Sinogram` object.  `self.meta = meta` stores the caller's
dict without copying, and the constructor then writes the `cropped` key into
that same object, so `meta` here is simultaneously the record's metadata and
the final contents of the caller-supplied mapping.  `hleaves` records the
constructor's assertion `0 <= shape[1] <= 64` (the lower bound is trivial for
a natural number). -/
structure Sinogram where
  data : Arr2
  meta : Meta
  hleaves : data.cols ≤ 64

/-- `Sinogram.__init__(data, meta)`: assert `0 <= shape[1] <= 64`, set
`meta['cropped'] = shape[1] < 64` (mutating the supplied dict), and on a
failed assertion raise `ValueError('invalid number of mlc leaves')`. -/
def initSinogram (data : Arr2) (meta : Meta) : Except String Sinogram :=
  if h : data.cols ≤ 64 then
    .ok ⟨data, dictSet meta "cropped" (.b (decide (data.cols < 64))), h⟩
  else
    .error "invalid number of mlc leaves"

/-- The Python exceptions that can escape the embedded fragments. -/
inductive PyExc where
  | valueError
  | indexError
deriving DecidableEq

/-- All open-time values of a record in row-major order (the element order of
`sinogram.data` as a flat numpy array). -/
def joinVals (s : Sinogram) : List ℚ := s.data.data.flatten

/-- `np.max` / running maximum of a nonempty list presented as head and tail;
`listMax (v :: vs)` is `np.max` of an array with elements `v :: vs`.  On `[]`
it is a junk value 0 (numpy raises instead; callers match on emptiness
first). -/
def listMax : List ℚ → ℚ
  | [] => 0
  | v :: vs => vs.foldl max v

/-- `np.min` of a nonempty list, junk 0 on `[]` (numpy raises instead). -/
def listMin : List ℚ → ℚ
  | [] => 0
  | v :: vs => vs.foldl min v

/-- `Sinogram.__str__`: format projection count, leaf count and open-time
range.  The format arguments are evaluated left to right: `len(self.data)` is
fine, but `self.data[0]` raises `IndexError` on a zero-row array, and that
exception is not a `ValueError`, so the `except ValueError` handler does not
catch it.  `np.min`/`np.max` raise `ValueError` on a zero-size array (rows
present but zero columns), which the handler catches, returning `''`
(the `EMPTY SINOGRAM` path).  Rational `toString` stands in for Python float
formatting; no claim depends on the digits. -/
def sinogramStr (s : Sinogram) : Except PyExc String :=
  match s.data.data with
  | [] => .error .indexError
  | p0 :: _ =>
    match joinVals s with
    | [] => .ok ""
    | v :: vs =>
      .ok ("Sinogram object: " ++ toString s.data.data.length ++ " projs | " ++
        toString p0.length ++ " leaves | open time (" ++
        toString (vs.foldl min v) ++ " -> " ++ toString (vs.foldl max v) ++ ")")

/-- Column `i` of `np.any(data > 0, axis=0)`: whether any projection has a
strictly positive open time at leaf `i`. -/
def activeFn (a : Arr2) (i : ℕ) : Bool :=
  a.data.any (fun p => decide (0 < p.getD i 0))

/-- `list(np.any(uncropped.data > 0, axis=0))`: the per-leaf activity vector,
one boolean per column. -/
def activeMask (a : Arr2) : List Bool :=
  (List.range a.cols).map (activeFn a)

/-- The `idx = idx or idx[::-1]` step of `crop`.  Python `or` tests the
truthiness of the left operand: a non-empty list is truthy, so the reversed
list is only ever produced when `idx` is `[]` (and the reverse of `[]` is
`[]` again).  No element-wise OR takes place. -/
def pyListOr (idx : List Bool) : List Bool :=
  if idx.isEmpty then idx.reverse else idx

/-- The ascending column indices selected by the boolean mask
`uncropped.data[:, idx]`. -/
def keptIdx (a : Arr2) : List ℕ :=
  (List.range (pyListOr (activeMask a)).length).filter
    (fun i => (pyListOr (activeMask a)).getD i false)

/-- The array produced by `uncropped.data[:, idx]`: every row restricted to
the selected columns, in ascending column order, rows in original order. -/
def cropData (a : Arr2) : Arr2 where
  cols := (keptIdx a).length
  data := a.data.map (fun p => (keptIdx a).map (fun i => p.getD i 0))
  rect := by
    intro q hq
    rcases List.mem_map.mp hq with ⟨p, _, hp⟩
    rw [← hp, List.length_map]

/-- `crop(uncropped)`: select the masked columns and build
`Sinogram(data, meta={'cropped': True})` (whose constructor then overwrites
the `cropped` key with the derived value). -/
def crop (s : Sinogram) : Except String Sinogram :=
  initSinogram (cropData s.data) [("cropped", .b true)]

/-- The retention rule as the specification states it, for comparison with
the implementation: leaf `i` is retained when it is active or its mirror
index `leaf_count - 1 - i` is active. -/
def claimRetained (a : Arr2) (i : ℕ) : Bool :=
  activeFn a i || activeFn a (a.cols - 1 - i)

/-- The loop of `unshuffle`: `idx` starts at 0, each projection is appended
to bucket `idx`, and `idx` becomes `(idx + 1) % 51`. -/
def unshuffleLoop : List (List ℚ) → ℕ → List (List (List ℚ)) → List (List (List ℚ))
  | [], _, buckets => buckets
  | p :: rest, idx, buckets =>
      unshuffleLoop rest ((idx + 1) % 51) (buckets.set idx (buckets.getD idx [] ++ [p]))

/-- `unshuffle(shuffled)`: distribute the projections of `shuffled.data`
round-robin over `[[] for i in range(51)]`. -/
def unshuffle (s : Sinogram) : List (List (List ℚ)) :=
  unshuffleLoop s.data.data 0 (List.replicate 51 [])

/-- The claim's description of bucket `j`: the projections whose index `k`
(counting from `n`) satisfies `k % 51 = j`, in order of arrival. -/
def rrFrom (j : ℕ) : ℕ → List (List ℚ) → List (List ℚ)
  | _, [] => []
  | n, p :: rest =>
      if n % 51 = j then p :: rrFrom j (n + 1) rest else rrFrom j (n + 1) rest

/-- Bin edge `i` of `np.histogram` over range `(lo, hi)` with `n` bins:
`np.linspace(lo, hi, n+1)` gives `lo + i * (hi - lo) / n`. -/
def histEdge (lo hi : ℚ) (n i : ℕ) : ℚ := lo + i * ((hi - lo) / n)

/-- Membership of value `v` in bin `i` of `np.histogram` over `(lo, hi)` with
`n` bins: each bin is the half-open interval between consecutive edges,
except the last, which is closed on the right (and the endpoint `hi` is the
last edge exactly). -/
def inBin (lo hi : ℚ) (n i : ℕ) (v : ℚ) : Bool :=
  decide (histEdge lo hi n i ≤ v) &&
    (if i + 1 = n then decide (v ≤ hi) else decide (v < histEdge lo hi n (i + 1)))

/-- The counts array of `np.histogram(values, bins=n, range=(lo, hi))`. -/
def histCounts (vals : List ℚ) (lo hi : ℚ) (n : ℕ) : List ℕ :=
  (List.range n).map (fun i => vals.countP (inBin lo hi n i))

/-- The edges array of `np.histogram(values, bins=n, range=(lo, hi))`. -/
def histEdges (lo hi : ℚ) (n : ℕ) : List ℚ :=
  (List.range (n + 1)).map (histEdge lo hi n)

/-- `get_histogram(sinogram, bins)` (plotting branch aside): compute
`rng = (0, np.max(sinogram.data))` and return
`np.histogram(sinogram.data, bins=bins, range=rng)`.
`np.max` raises `ValueError` on a zero-size array, `np.histogram` rejects a
nonpositive bin count and a reversed range (max < 0), and when the two range
endpoints coincide (max = 0) numpy widens the range to `(-0.5, 0.5)`.  The
failure outcomes are collapsed to `none`. -/
def get_histogram (s : Sinogram) (bins : ℕ) : Option (List ℕ × List ℚ) :=
  match joinVals s, bins with
  | [], _ => none
  | _ :: _, 0 => none
  | v :: vs, n + 1 =>
    let mx := listMax (v :: vs)
    if mx < 0 then none
    else
      let lo : ℚ := if mx = 0 then -(1 / 2) else 0
      let hi : ℚ := if mx = 0 then 1 / 2 else mx
      some (histCounts (v :: vs) lo hi (n + 1), histEdges lo hi (n + 1))

/-- Outcome of `get_mod_factor`: a numeric value, the float `nan` (produced
by `np.mean` of an empty selection, with only a runtime warning — no
exception), or the `ValueError` that `np.max` raises on a zero-size array. -/
inductive MFResult where
  | val (q : ℚ)
  | nan
  | valueError
deriving DecidableEq

/-- The modulation factor outcome is a proper numeric value at least 1. -/
def MFResult.geOne : MFResult → Prop
  | .val q => 1 ≤ q
  | .nan => False
  | .valueError => False

/-- `get_mod_factor(sinogram)`:
`np.max(sinogram.data) / np.mean(sinogram.data[sinogram.data > 0])`.
On a zero-size array `np.max` raises `ValueError`; when no entry is strictly
positive the selection is empty, `np.mean` of it is `nan`, and the division
propagates `nan` — no exception is raised on that path. -/
def get_mod_factor (s : Sinogram) : MFResult :=
  match joinVals s with
  | [] => .valueError
  | v :: vs =>
    let pos := (v :: vs).filter (fun x => decide (0 < x))
    if pos.isEmpty then .nan
    else .val (listMax (v :: vs) / (pos.sum / (pos.length : ℚ)))

/-! Concrete inputs used by the evaluation theorems and witnesses. -/

/-- 1 projection over 2 leaves, `[[1.0, 0.0]]`: leaf 0 active, leaf 1 closed
but mirror-active. -/
def exAsym : Arr2 where
  cols := 2
  data := [[1, 0]]
  rect := by decide

/-- The 64-leaf symmetric strip from the test fixture:
`[[0.0]*31 + [1.0]*2 + [0.0]*31` twice. -/
def exSym64 : Arr2 where
  cols := 64
  data :=
    [List.replicate 31 0 ++ [1, 1] ++ List.replicate 31 0,
     List.replicate 31 0 ++ [1, 1] ++ List.replicate 31 0]
  rect := by decide

/-- `np.zeros((0, 64))`: a valid 2-D array with zero projections. -/
def exArr0x64 : Arr2 where
  cols := 64
  data := []
  rect := by decide

/-- `[[]]`: one projection with zero leaves (shape `(1, 0)`). -/
def exArr1x0 : Arr2 where
  cols := 0
  data := [[]]
  rect := by decide

/-- `np.zeros((0, 0))`: an empty array of leaf count 0. -/
def exArr0x0 : Arr2 where
  cols := 0
  data := []
  rect := by decide

/-- One projection over 64 leaves, all zero. -/
def exArr1x64 : Arr2 where
  cols := 64
  data := [List.replicate 64 0]
  rect := by decide

/-- One projection over 65 leaves, all zero: one leaf too many. -/
def exArr1x65 : Arr2 where
  cols := 65
  data := [List.replicate 65 0]
  rect := by decide

/-- `[[0.0]]`: a record whose open times are all zero. -/
def exArrZero : Arr2 where
  cols := 1
  data := [[0]]
  rect := by decide

/-- `[[0.5, 1.0]]`: open-time values with a strictly positive minimum. -/
def exArrHalf : Arr2 where
  cols := 2
  data := [[mkRat 1 2, 1]]
  rect := by decide

/-- `[[0.0, 0.5, 1.0]]`: a mix of a closed leaf and two open leaves. -/
def exArrMix : Arr2 where
  cols := 3
  data := [[0, mkRat 1 2, 1]]
  rect := by decide

/-- The record built from `exAsym` with empty caller metadata. -/
def exRecAsym : Sinogram := ⟨exAsym, [("cropped", .b true)], by decide⟩

/-- The record `crop` produces from `exRecAsym`: only the active column. -/
def exRecCropA : Sinogram := ⟨⟨1, [[1]], by decide⟩, [("cropped", .b true)], by decide⟩

/-- The record built from `exArr0x64` (valid, zero projections). -/
def exRec0x64 : Sinogram := ⟨exArr0x64, [("cropped", .b false)], by decide⟩

/-- The record built from `[[]]` (one projection, zero leaves). -/
def exRec1x0 : Sinogram := ⟨exArr1x0, [("cropped", .b true)], by decide⟩

/-- The all-zero one-value record. -/
def exRecZero : Sinogram := ⟨exArrZero, [("cropped", .b true)], by decide⟩

/-- The `[[0.5, 1.0]]` record. -/
def exRecHalf : Sinogram := ⟨exArrHalf, [("cropped", .b true)], by decide⟩

/-- The `[[0.0, 0.5, 1.0]]` record. -/
def exRecMix : Sinogram := ⟨exArrMix, [("cropped", .b true)], by decide⟩

/-- A record with 510 projections (of zero leaves each), for the round-robin
bucket-size fact. -/
def exRecU : Sinogram :=
  ⟨⟨0, List.replicate 510 [], by intro p hp; simp [List.eq_of_mem_replicate hp]⟩,
   [("cropped", .b true)], by decide⟩

/-! Helper lemmas. -/

/-- Two arrays with the same column count and the same rows are equal. -/
theorem arr2_eq_of {a b : Arr2} (h1 : a.cols = b.cols) (h2 : a.data = b.data) :
    a = b := by
  cases a; cases b
  cases h1; cases h2
  rfl

/-- Two records with the same array and the same metadata are equal. -/
theorem sinogram_eq_of {a b : Sinogram} (h1 : a.data = b.data)
    (h2 : a.meta = b.meta) : a = b := by
  cases a; cases b
  cases h1; cases h2
  rfl

/-- Looking up the key just assigned returns the assigned value. -/
theorem dictGet_dictSet (m : Meta) (k : String) (v : MVal) :
    dictGet (dictSet m k v) k = some v := by
  induction m with
  | nil => simp [dictSet, dictGet]
  | cons kw rest ih =>
    obtain ⟨k1, w⟩ := kw
    by_cases h : k1 = k
    · simp [dictSet, dictGet, h]
    · simp [dictSet, dictGet, h, ih]

/-- Assignment changes the dict whenever it did not already map the key to
the assigned value. -/
theorem dictSet_ne (m : Meta) (k : String) (v : MVal)
    (h : dictGet m k ≠ some v) : dictSet m k v ≠ m := by
  induction m with
  | nil => simp [dictSet]
  | cons kw rest ih =>
    obtain ⟨k1, w⟩ := kw
    by_cases hk : k1 = k
    · subst hk
      simp only [dictGet, if_true, eq_self_iff_true] at h
      simp only [dictSet, if_true, eq_self_iff_true]
      simp only [ne_eq, List.cons.injEq, Prod.mk.injEq, true_and, not_and]
      intro hv
      exact absurd (by rw [hv]) h
    · simp only [dictGet, if_neg hk] at h
      simp only [dictSet, if_neg hk]
      simp only [ne_eq, List.cons.injEq, not_and]
      intro _
      exact ih h

/-! Claim theorems. -/

/-- C4: for every 2-D numeric array and metadata mapping, record construction
succeeds if and only if the second dimension (`leaf_count`) is at most 64
(a natural number is trivially at least 0), and above 64 it fails with the
error whose message identifies an invalid leaf count. -/
theorem sino_C4 (d : Arr2) (m : Meta) :
    ((initSinogram d m).isOk = true ↔ d.cols ≤ 64) ∧
    (64 < d.cols → initSinogram d m = .error "invalid number of mlc leaves") := by
  constructor
  · unfold initSinogram
    split
    · next h => simp [Except.isOk, Except.toBool, h]
    · next h => simp [Except.isOk, Except.toBool, h]
  · intro h
    unfold initSinogram
    rw [dif_neg (by omega)]

/-- C4 witness: leaf counts 0 and 64 construct successfully; leaf count 65
fails with the invalid-leaf-count error. -/
theorem sino_C4_witness :
    ((initSinogram exArr0x0 []).isOk = true) ∧
    ((initSinogram exArr1x64 []).isOk = true) ∧
    (initSinogram exArr1x65 [] = .error "invalid number of mlc leaves") :=
  ⟨(sino_C4 exArr0x0 []).1.mpr (by decide),
   (sino_C4 exArr1x64 []).1.mpr (by decide),
   (sino_C4 exArr1x65 []).2 (by decide)⟩

/-- C5: every successfully constructed record has
`metadata['cropped'] = (leaf_count < 64)`, whatever value the caller supplied
for that key. -/
theorem sino_C5 (d : Arr2) (m : Meta) (t : Sinogram)
    (h : initSinogram d m = .ok t) :
    dictGet t.meta "cropped" = some (.b (decide (d.cols < 64))) := by
  unfold initSinogram at h
  split at h
  · injection h with h1
    rw [← h1]
    exact dictGet_dictSet m "cropped" _
  · cases h

/-- C5 witness: constructing from `[[1.0, 0.0]]` (2 leaves) with
caller-supplied `{'cropped': False}` yields `metadata['cropped'] = True`,
overwriting the supplied value. -/
theorem sino_C5_witness : dictGet exRecAsym.meta "cropped" = some (.b true) := by
  have h := sino_C5 exAsym [("cropped", .b false)] exRecAsym rfl
  simpa using h

/-- C6 (code bug): a valid record with zero projections can be constructed
(`np.zeros((0, 64))` passes validation), but its descriptive rendering
evaluates `self.data[0]`, raising `IndexError`, which the `except ValueError`
handler does not catch — the claimed empty-string degradation only happens
for records with projections but zero leaves (such as `[[]]`), where the
caught exception is the `ValueError` from `np.min`. -/
theorem sino_C6_eval :
    (initSinogram exArr0x64 [] = .ok exRec0x64 ∧
      sinogramStr exRec0x64 = .error .indexError) ∧
    (initSinogram exArr1x0 [] = .ok exRec1x0 ∧
      sinogramStr exRec1x0 = .ok "") :=
  ⟨⟨rfl, rfl⟩, ⟨rfl, rfl⟩⟩

/-- C2 counterexample: on the all-zero record `[[0.0]]` the modulation-factor
computation does not fail at all — `np.mean` of the empty positive selection
is `nan` (a runtime warning, not an exception) and the division propagates
it, so the result is the float `nan`, not a raised `DegenerateInputError`
(no such failure path exists in the function; its only exception is the
`ValueError` of `np.max` on a zero-size array). -/
theorem sino_C2_cex :
    get_mod_factor exRecZero = MFResult.nan ∧
    MFResult.nan ≠ MFResult.valueError :=
  ⟨rfl, by decide⟩

/-- C1 (code bug): `idx = idx or idx[::-1]` does not symmetrize.  On
`[[1.0, 0.0]]` the claim retains both leaves (index 1 is inactive but its
mirror 0 is active), yet the code keeps only the single active column,
returning `[[1.0]]`; on the symmetric 64-leaf strip fixture the difference is
invisible and the claimed `[[1,1],[1,1]]` does come out. -/
theorem sino_C1_crop_eval :
    ((cropData exAsym).cols = 1 ∧ (cropData exAsym).data = [[(1 : ℚ)]]) ∧
    ((List.range exAsym.cols).filter (fun i => claimRetained exAsym i)).length = 2 ∧
    ((cropData exSym64).cols = 2 ∧ (cropData exSym64).data = [[1, 1], [1, 1]]) :=
  ⟨⟨rfl, rfl⟩, rfl, ⟨rfl, by decide⟩⟩

/-- C8 counterexample: record construction mutates the caller-supplied
metadata mapping.  `self.meta = meta` stores the caller's dict object without
copying and the constructor then writes the `cropped` key into it, so after
`Sinogram(data, meta)` with an initially empty `meta` the caller's dict holds
`{'cropped': True}` — the record's `meta` and the caller's mapping are the
same object, and its final contents differ from the supplied contents. -/
theorem sino_C8_cex :
    initSinogram exAsym [] = .ok exRecAsym ∧ exRecAsym.meta ≠ ([] : Meta) :=
  ⟨rfl, by decide⟩

/-- C8 amended: `crop`, `unshuffle`, histogram and modulation-factor
computation allocate fresh results (the input array is never written by any
operation), but record construction writes the derived `cropped` key into
the caller-supplied metadata mapping, which therefore changes whenever it
did not already bind `'cropped'` to the derived value. -/
theorem sino_C8_amended (d : Arr2) (m : Meta) (t : Sinogram)
    (h : initSinogram d m = .ok t) :
    t.meta = dictSet m "cropped" (.b (decide (d.cols < 64))) ∧
    (dictGet m "cropped" ≠ some (.b (decide (d.cols < 64))) → t.meta ≠ m) := by
  unfold initSinogram at h
  split at h
  · injection h with h1
    rw [← h1]
    exact ⟨rfl, fun hg => dictSet_ne m "cropped" _ hg⟩
  · cases h

/-- C8 amended, witness: constructing from `[[1.0, 0.0]]` with an empty
caller dict leaves the caller's mapping holding the `cropped` binding,
no longer empty. -/
theorem sino_C8_witness :
    exRecAsym.meta = dictSet [] "cropped" (.b true) ∧
    exRecAsym.meta ≠ ([] : Meta) := by
  have h := sino_C8_amended exAsym [] exRecAsym rfl
  exact ⟨by simpa using h.1, h.2 (by simp [dictGet])⟩

/-- C2 amended: on a record with at least one open-time value, the
modulation-factor computation never raises; its result is the undefined
float `nan` exactly when no value is strictly positive (in particular when
all open times are zero), and otherwise it is
`max(open_times) / mean(open_times > 0)`. -/
theorem sino_C2_amended (s : Sinogram) (hne : joinVals s ≠ []) :
    (get_mod_factor s = .nan ↔ ∀ v ∈ joinVals s, v ≤ 0) ∧
    ((joinVals s).filter (fun x => decide (0 < x)) ≠ [] →
      get_mod_factor s = .val (listMax (joinVals s) /
        (((joinVals s).filter (fun x => decide (0 < x))).sum /
          (((joinVals s).filter (fun x => decide (0 < x))).length : ℚ)))) := by
  cases hv : joinVals s with
  | nil => exact absurd hv hne
  | cons v vs =>
    unfold get_mod_factor
    rw [hv]
    simp only []
    constructor
    · by_cases hp : ((v :: vs).filter (fun x => decide (0 < x))).isEmpty
      · rw [if_pos hp]
        simp only [List.isEmpty_iff, List.filter_eq_nil_iff] at hp
        simp only [true_iff]
        intro x hx
        exact le_of_not_lt (by simpa using hp x hx)
      · rw [if_neg hp]
        simp only [List.isEmpty_iff, List.filter_eq_nil_iff] at hp
        push_neg at hp
        obtain ⟨x, hx, hx0⟩ := hp
        constructor
        · intro hcon
          cases hcon
        · intro hall
          exact absurd (hall x hx) (not_le.mpr (by simpa using hx0))
    · intro hpne
      rw [if_neg (by simpa [List.isEmpty_iff] using hpne)]

/-- C2 amended, witness: on `[[0.0, 0.5, 1.0]]` the modulation factor is the
proper value `max / mean-of-positives`. -/
theorem sino_C2_witness :
    get_mod_factor exRecMix = .val (listMax (joinVals exRecMix) /
      (((joinVals exRecMix).filter (fun x => decide (0 < x))).sum /
        (((joinVals exRecMix).filter (fun x => decide (0 < x))).length : ℚ))) :=
  (sino_C2_amended exRecMix (by decide)).2 (by decide)

/-- The unshuffle loop never changes the number of buckets. -/
theorem unshuffleLoop_length (projs : List (List ℚ)) :
    ∀ (idx : ℕ) (buckets : List (List (List ℚ))),
      (unshuffleLoop projs idx buckets).length = buckets.length := by
  induction projs with
  | nil => intro idx buckets; rfl
  | cons p rest ih =>
    intro idx buckets
    simp only [unshuffleLoop]
    rw [ih, List.length_set]

/-- The round-robin selection depends on the starting index only through its
residue modulo 51. -/
theorem rrFrom_mod (j : ℕ) (projs : List (List ℚ)) :
    ∀ n, rrFrom j n projs = rrFrom j (n % 51) projs := by
  induction projs with
  | nil => intro n; rfl
  | cons p rest ih =>
    intro n
    have h1 : n % 51 % 51 = n % 51 := Nat.mod_mod_of_dvd n dvd_rfl
    have h2 : rrFrom j (n + 1) rest = rrFrom j (n % 51 + 1) rest := by
      rw [ih (n + 1), ih (n % 51 + 1)]
      congr 1
      omega
    simp only [rrFrom, h1, h2]

/-- Invariant of the unshuffle loop: bucket `j` accumulates, after its prior
contents, exactly the projections whose running index is congruent to `j`
modulo 51, in arrival order. -/
theorem unshuffleLoop_getD (projs : List (List ℚ)) :
    ∀ (idx : ℕ) (buckets : List (List (List ℚ))), buckets.length = 51 →
      idx < 51 → ∀ j, j < 51 →
      (unshuffleLoop projs idx buckets).getD j [] =
        buckets.getD j [] ++ rrFrom j idx projs := by
  induction projs with
  | nil =>
    intro idx buckets hlen hidx j hj
    simp [unshuffleLoop, rrFrom]
  | cons p rest ih =>
    intro idx buckets hlen hidx j hj
    simp only [unshuffleLoop]
    rw [ih ((idx + 1) % 51) _ (by rw [List.length_set, hlen])
        (Nat.mod_lt _ (by norm_num)) j hj]
    rw [← rrFrom_mod j rest (idx + 1)]
    have hmod : idx % 51 = idx := Nat.mod_eq_of_lt hidx
    by_cases hij : idx = j
    · subst hij
      rw [List.getD_eq_getElem?_getD, List.getElem?_set_self (by omega),
        Option.getD_some]
      simp only [rrFrom, hmod, if_pos rfl, eq_self_iff_true, if_true]
      rw [List.getD_eq_getElem?_getD, List.append_assoc, List.singleton_append]
    · rw [List.getD_eq_getElem?_getD, List.getElem?_set_ne hij,
        ← List.getD_eq_getElem?_getD]
      simp only [rrFrom, hmod, if_neg hij]

/-- The length of a round-robin bucket depends only on the length of the
projection list, not on the projections themselves. -/
theorem rrFrom_length_congr (j : ℕ) (xs : List (List ℚ)) :
    ∀ (n : ℕ) (ys : List (List ℚ)), xs.length = ys.length →
      (rrFrom j n xs).length = (rrFrom j n ys).length := by
  induction xs with
  | nil =>
    intro n ys h
    cases ys with
    | nil => rfl
    | cons y ys => simp at h
  | cons x xs ih =>
    intro n ys h
    cases ys with
    | nil => simp at h
    | cons y ys =>
      simp only [List.length_cons, Nat.add_right_cancel_iff] at h
      simp only [rrFrom]
      split
      · simp only [List.length_cons, ih (n + 1) ys h]
      · exact ih (n + 1) ys h

/-- Concrete residue count: among 510 consecutive indices each residue class
modulo 51 occurs exactly 10 times. -/
theorem rrFrom_replicate_len :
    ∀ j, j < 51 →
      (rrFrom j 0 (List.replicate 510 ([] : List ℚ))).length = 10 := by decide

/-- C7: unshuffling any record yields exactly 51 buckets; bucket `j` holds
exactly the projections whose arrival index `k` satisfies `k % 51 = j`, in
arrival order (so all buckets exist even on empty input); and with 510
projections every bucket holds exactly 10. -/
theorem sino_C7 (s : Sinogram) :
    (unshuffle s).length = 51 ∧
    (∀ j, j < 51 → (unshuffle s).getD j [] = rrFrom j 0 s.data.data) ∧
    (s.data.data.length = 510 →
      ∀ j, j < 51 → ((unshuffle s).getD j []).length = 10) := by
  have hbody : ∀ j, j < 51 → (unshuffle s).getD j [] = rrFrom j 0 s.data.data := by
    intro j hj
    unfold unshuffle
    rw [unshuffleLoop_getD s.data.data 0 _ (List.length_replicate 51 []) (by norm_num) j hj]
    rw [List.getD_eq_getElem?_getD, List.getElem?_replicate, if_pos hj,
      Option.getD_some, List.nil_append]
  refine ⟨?_, hbody, ?_⟩
  · unfold unshuffle
    rw [unshuffleLoop_length, List.length_replicate]
  · intro hlen j hj
    rw [hbody j hj,
      rrFrom_length_congr j s.data.data 0 (List.replicate 510 ([] : List ℚ))
        (by rw [hlen, List.length_replicate]),
      rrFrom_replicate_len j hj]

/-- C7 witness: for the 510-projection record the loop yields 51 buckets,
bucket 3 is its residue class, and bucket 0 holds exactly 10 projections. -/
theorem sino_C7_witness :
    (unshuffle exRecU).length = 51 ∧
    (unshuffle exRecU).getD 3 [] = rrFrom 3 0 exRecU.data.data ∧
    ((unshuffle exRecU).getD 0 []).length = 10 :=
  ⟨(sino_C7 exRecU).1, (sino_C7 exRecU).2.1 3 (by norm_num),
   (sino_C7 exRecU).2.2 (List.length_replicate 510 ([] : List ℚ)) 0 (by norm_num)⟩

/-- Python's `idx or idx[::-1]` is the identity: a non-empty list is truthy,
and the reverse of the empty list is the empty list. -/
theorem pyListOr_eq (idx : List Bool) : pyListOr idx = idx := by
  unfold pyListOr
  split
  · next h =>
    rw [List.isEmpty_iff.mp h]
    rfl
  · rfl

/-- The activity mask has one entry per leaf. -/
theorem length_activeMask (a : Arr2) : (activeMask a).length = a.cols := by
  simp [activeMask]

/-- Entry `i` of the activity mask is the activity of leaf `i`. -/
theorem activeMask_getD (a : Arr2) (i : ℕ) (h : i < a.cols) :
    (activeMask a).getD i false = activeFn a i := by
  unfold activeMask
  rw [List.getD_eq_getElem _ _ (by simpa using h)]
  simp

/-- The selected columns are precisely the active ones, in ascending order. -/
theorem keptIdx_eq (a : Arr2) :
    keptIdx a = (List.range a.cols).filter (fun i => activeFn a i) := by
  unfold keptIdx
  rw [pyListOr_eq, length_activeMask]
  exact List.filter_congr fun i hi => activeMask_getD a i (List.mem_range.mp hi)

/-- Membership in the selected columns. -/
theorem mem_keptIdx (a : Arr2) (i : ℕ) :
    i ∈ keptIdx a ↔ i < a.cols ∧ activeFn a i = true := by
  rw [keptIdx_eq]
  simp [List.mem_filter]

/-- Reading a selected entry of a mapped row fetches the original entry at
the selected index. -/
theorem getD_map_getD (l : List ℕ) (p : List ℚ) (j : ℕ) (h : j < l.length) :
    (l.map (fun i => p.getD i 0)).getD j 0 = p.getD (l.getD j 0) 0 := by
  rw [List.getD_eq_getElem _ _ (by simpa using h), List.getElem_map,
    List.getD_eq_getElem _ _ h]

/-- Every column of a cropped array is active: it came from an active column
of the original. -/
theorem activeFn_cropData (a : Arr2) (j : ℕ) (h : j < (keptIdx a).length) :
    activeFn (cropData a) j = true := by
  have hk : (keptIdx a).getD j 0 ∈ keptIdx a := by
    rw [List.getD_eq_getElem _ _ h]
    exact List.getElem_mem h
  have hact : activeFn a ((keptIdx a).getD j 0) = true :=
    ((mem_keptIdx a _).mp hk).2
  unfold activeFn at hact ⊢
  show (a.data.map fun p => (keptIdx a).map fun i => p.getD i 0).any
    (fun q => decide (0 < q.getD j 0)) = true
  rw [List.any_map]
  have hfun : ((fun (q : List ℚ) => decide (0 < q.getD j 0)) ∘
      fun (p : List ℚ) => (keptIdx a).map fun i => p.getD i 0) =
      fun (p : List ℚ) => decide (0 < p.getD ((keptIdx a).getD j 0) 0) := by
    funext p
    simp only [Function.comp_apply, getD_map_getD _ _ _ h]
  rw [hfun]
  exact hact

/-- Cropping an already cropped array selects every column. -/
theorem keptIdx_cropData (a : Arr2) :
    keptIdx (cropData a) = List.range (keptIdx a).length := by
  rw [keptIdx_eq]
  show List.filter _ (List.range (keptIdx a).length) = _
  apply List.filter_eq_self.mpr
  intro i hi
  exact activeFn_cropData a i (List.mem_range.mp hi)

/-- Selecting every index of a row reproduces the row. -/
theorem map_getD_range (p : List ℚ) :
    (List.range p.length).map (fun i => p.getD i 0) = p := by
  apply List.ext_getElem (by simp)
  intro i h1 h2
  rw [List.getElem_map, List.getElem_range, List.getD_eq_getElem _ _ h2]

/-- Cropping is idempotent on the data: every column that survives one crop
is active, so a second crop removes nothing. -/
theorem cropData_idem (a : Arr2) : cropData (cropData a) = cropData a := by
  apply arr2_eq_of
  · show (keptIdx (cropData a)).length = (keptIdx a).length
    rw [keptIdx_cropData, List.length_range]
  · show (cropData a).data.map
        (fun p => (keptIdx (cropData a)).map fun i => p.getD i 0) =
      (cropData a).data
    rw [keptIdx_cropData]
    have hrow : ∀ q ∈ (cropData a).data,
        (List.range (keptIdx a).length).map (fun i => q.getD i 0) = q := by
      intro q hq
      have hlen : q.length = (keptIdx a).length := (cropData a).rect q hq
      rw [← hlen]
      exact map_getD_range q
    rw [List.map_congr_left hrow]
    simp

/-- Inversion of a successful crop: the result's fields. -/
theorem crop_eq_ok (s t : Sinogram) (h : crop s = .ok t) :
    t.data = cropData s.data ∧
    t.meta = [("cropped", MVal.b (decide ((cropData s.data).cols < 64)))] := by
  unfold crop initSinogram at h
  split at h
  · injection h with h1
    rw [← h1]
    constructor
    · rfl
    · show dictSet [("cropped", MVal.b true)] "cropped" _ = _
      simp [dictSet]
  · cases h

/-- C9: crop is idempotent — applying crop to the record produced by a crop
returns that record unchanged (in particular the retained leaf channels are
identical). -/
theorem sino_C9 (s t : Sinogram) (h : crop s = .ok t) : crop t = .ok t := by
  obtain ⟨hd, hm⟩ := crop_eq_ok s t h
  have hidem : cropData t.data = t.data := by
    rw [hd, cropData_idem]
  unfold crop
  rw [hidem]
  unfold initSinogram
  rw [dif_pos t.hleaves]
  congr 1
  apply sinogram_eq_of
  · rfl
  show dictSet [("cropped", MVal.b true)] "cropped"
      (MVal.b (decide (t.data.cols < 64))) = t.meta
  rw [hm, hd]
  simp [dictSet]

/-- C9 witness: cropping `[[1.0, 0.0]]` yields the one-column record, and
cropping that record again returns it unchanged. -/
theorem sino_C9_witness : crop exRecCropA = .ok exRecCropA :=
  sino_C9 exRecAsym exRecCropA rfl

/-- The seed of a running maximum is bounded by the result. -/
theorem init_le_foldl_max (l : List ℚ) : ∀ a : ℚ, a ≤ l.foldl max a := by
  induction l with
  | nil => intro a; exact le_refl a
  | cons b l ih =>
    intro a
    calc a ≤ max a b := le_max_left a b
      _ ≤ (b :: l).foldl max a := by
        rw [List.foldl_cons]
        exact ih (max a b)

/-- Every element of a list is bounded by a running maximum over it. -/
theorem mem_le_foldl_max (l : List ℚ) :
    ∀ (a x : ℚ), x ∈ l → x ≤ l.foldl max a := by
  induction l with
  | nil => intro a x hx; cases hx
  | cons b l ih =>
    intro a x hx
    rw [List.foldl_cons]
    rcases List.mem_cons.mp hx with hxb | hxl
    · subst hxb
      calc x ≤ max a x := le_max_right a x
        _ ≤ l.foldl max (max a x) := init_le_foldl_max l (max a x)
    · exact ih (max a b) x hxl

/-- `np.max` bounds every element. -/
theorem le_listMax (l : List ℚ) (x : ℚ) (hx : x ∈ l) : x ≤ listMax l := by
  cases l with
  | nil => cases hx
  | cons v vs =>
    rcases List.mem_cons.mp hx with hxv | hxvs
    · subst hxv
      exact init_le_foldl_max vs x
    · exact mem_le_foldl_max vs v x hxvs

/-- C10: whenever all open times lie in `[0, 1]` and at least one is
strictly positive, the modulation factor is a proper value and is at least
1 — the maximum is at least the mean of the strictly positive values. -/
theorem sino_C10 (s : Sinogram) (h01 : ∀ v ∈ joinVals s, 0 ≤ v ∧ v ≤ 1)
    (hpos : ∃ v ∈ joinVals s, 0 < v) : (get_mod_factor s).geOne := by
  obtain ⟨x, hx, hx0⟩ := hpos
  cases hv : joinVals s with
  | nil => rw [hv] at hx; cases hx
  | cons v vs =>
    rw [hv] at hx
    have hxp : x ∈ (v :: vs).filter (fun y => decide (0 < y)) :=
      List.mem_filter.mpr ⟨hx, by simpa using hx0⟩
    have hne : (v :: vs).filter (fun y => decide (0 < y)) ≠ [] := by
      intro hcon
      rw [hcon] at hxp
      cases hxp
    have hsum : 0 < ((v :: vs).filter (fun y => decide (0 < y))).sum := by
      apply List.sum_pos
      · intro y hy
        have := (List.mem_filter.mp hy).2
        simpa using this
      · exact hne
    have hlen : (0 : ℚ) < (((v :: vs).filter (fun y => decide (0 < y))).length : ℚ) := by
      rw [Nat.cast_pos]
      exact List.length_pos.mpr hne
    have hub : ∀ y ∈ (v :: vs).filter (fun y => decide (0 < y)),
        y ≤ listMax (v :: vs) := fun y hy =>
      le_listMax (v :: vs) y (List.mem_filter.mp hy).1
    have hmean_le : ((v :: vs).filter (fun y => decide (0 < y))).sum /
        (((v :: vs).filter (fun y => decide (0 < y))).length : ℚ) ≤
        listMax (v :: vs) := by
      rw [div_le_iff₀ hlen]
      calc ((v :: vs).filter (fun y => decide (0 < y))).sum
          ≤ ((v :: vs).filter (fun y => decide (0 < y))).length •
              listMax (v :: vs) := List.sum_le_card_nsmul _ _ hub
        _ = listMax (v :: vs) *
              (((v :: vs).filter (fun y => decide (0 < y))).length : ℚ) := by
            rw [nsmul_eq_mul, mul_comm]
    have hmean_pos : 0 < ((v :: vs).filter (fun y => decide (0 < y))).sum /
        (((v :: vs).filter (fun y => decide (0 < y))).length : ℚ) :=
      div_pos hsum hlen
    unfold get_mod_factor
    rw [hv]
    simp only []
    rw [if_neg (by simpa [List.isEmpty_iff] using hne)]
    show (1 : ℚ) ≤ listMax (v :: vs) /
      (((v :: vs).filter (fun y => decide (0 < y))).sum /
        (((v :: vs).filter (fun y => decide (0 < y))).length : ℚ))
    rw [le_div_iff₀ hmean_pos, one_mul]
    exact hmean_le

/-- C10 witness: on `[[0.0, 0.5, 1.0]]` the modulation factor is a proper
value at least 1. -/
theorem sino_C10_witness : (get_mod_factor exRecMix).geOne :=
  sino_C10 exRecMix (by decide) (by decide)

/-- With a zero lower edge, edge `i` is `i` bin-widths. -/
theorem histEdge_zero (hi : ℚ) (n i : ℕ) : histEdge 0 hi n i = i * (hi / n) := by
  simp [histEdge]

/-- Partition property of the bins: every value of `[0, hi]` lies in exactly
one of the `n` bins over `(0, hi)` — consecutive bins are half-open and the
last is closed on the right. -/
theorem inBin_unique (hi : ℚ) (n : ℕ) (hn : 0 < n) (hhi : 0 < hi) (v : ℚ)
    (hv0 : 0 ≤ v) (hvh : v ≤ hi) :
    (List.range n).countP (fun i => inBin 0 hi n i v) = 1 := by
  have hnq : (0 : ℚ) < (n : ℚ) := by exact_mod_cast hn
  have hw : 0 < hi / n := div_pos hhi hnq
  have hvw0 : 0 ≤ v / (hi / n) := div_nonneg hv0 hw.le
  have hlow : ∀ j : ℕ, (histEdge 0 hi n j ≤ v ↔ j ≤ ⌊v / (hi / n)⌋₊) := by
    intro j
    rw [histEdge_zero]
    constructor
    · intro h
      exact Nat.le_floor ((le_div_iff₀ hw).mpr h)
    · intro h
      refine (le_div_iff₀ hw).mp (le_trans ?_ (Nat.floor_le hvw0))
      exact_mod_cast h
  have hupper : ∀ j : ℕ, (v < histEdge 0 hi n (j + 1) ↔ ⌊v / (hi / n)⌋₊ < j + 1) := by
    intro j
    rw [histEdge_zero, Nat.floor_lt hvw0, div_lt_iff₀ hw]
  have key : ∀ j, j < n →
      (inBin 0 hi n j v = true ↔ j = min ⌊v / (hi / n)⌋₊ (n - 1)) := by
    intro j hjn
    by_cases hend : j + 1 = n
    · unfold inBin
      rw [if_pos hend]
      simp only [Bool.and_eq_true, decide_eq_true_eq]
      constructor
      · rintro ⟨h1, _⟩
        have hjf : j ≤ ⌊v / (hi / n)⌋₊ := (hlow j).mp h1
        have hj : j = n - 1 := by omega
        rw [hj]
        exact (min_eq_right (by omega)).symm
      · intro hji
        refine ⟨(hlow j).mpr ?_, hvh⟩
        rw [hji]
        exact min_le_left _ _
    · unfold inBin
      rw [if_neg hend]
      simp only [Bool.and_eq_true, decide_eq_true_eq]
      constructor
      · rintro ⟨h1, h2⟩
        have hjf : j ≤ ⌊v / (hi / n)⌋₊ := (hlow j).mp h1
        have hfj : ⌊v / (hi / n)⌋₊ < j + 1 := (hupper j).mp h2
        have hfeq : ⌊v / (hi / n)⌋₊ = j := by omega
        rw [hfeq]
        exact (min_eq_left (by omega)).symm
      · intro hji
        have hfeq : ⌊v / (hi / n)⌋₊ = j := by
          rcases le_total ⌊v / (hi / n)⌋₊ (n - 1) with hc | hc
          · rw [min_eq_left hc] at hji
            omega
          · rw [min_eq_right hc] at hji
            omega
        exact ⟨(hlow j).mpr (by omega), (hupper j).mpr (by omega)⟩
  have hi0n : min ⌊v / (hi / n)⌋₊ (n - 1) < n :=
    lt_of_le_of_lt (min_le_right _ _) (by omega)
  have hcong : (List.range n).countP (fun i => inBin 0 hi n i v) =
      (List.range n).countP (fun j => j == min ⌊v / (hi / n)⌋₊ (n - 1)) :=
    List.countP_congr fun j hj => by
      rw [key j (List.mem_range.mp hj), beq_iff_eq]
  rw [hcong, ← List.count_eq_countP]
  exact List.count_eq_one_of_mem (List.nodup_range n) (List.mem_range.mpr hi0n)

/-- Sums of pointwise sums split. -/
theorem sum_map_add_nat {α : Type} (l : List α) (f g : α → ℕ) :
    (l.map (fun v => f v + g v)).sum = (l.map f).sum + (l.map g).sum := by
  induction l with
  | nil => rfl
  | cons v l ih =>
    simp only [List.map_cons, List.sum_cons, ih]
    omega

/-- A count is the sum of indicator values. -/
theorem countP_eq_sum_map (l : List ℚ) (p : ℚ → Bool) :
    l.countP p = (l.map (fun v => if p v then 1 else 0)).sum := by
  induction l with
  | nil => rfl
  | cons v l ih =>
    simp only [List.countP_cons, List.map_cons, List.sum_cons, ih]
    omega

/-- Exchanging the two summations: total bin occupancy equals, value by
value, the number of bins holding each value. -/
theorem hist_sum_exchange (vals : List ℚ) (il : List ℕ) (p : ℕ → ℚ → Bool) :
    (il.map (fun i => vals.countP (p i))).sum =
    (vals.map (fun v => il.countP (fun i => p i v))).sum := by
  induction il with
  | nil =>
    symm
    simp only [List.map_nil, List.sum_nil, List.countP_nil]
    apply List.sum_eq_zero
    intro x hx
    rcases List.mem_map.mp hx with ⟨v, _, hv⟩
    exact hv.symm
  | cons i il ih =>
    simp only [List.map_cons, List.sum_cons, ih, List.countP_cons]
    rw [sum_map_add_nat vals (fun v => il.countP (fun i2 => p i2 v))
        (fun v => if p i v then 1 else 0)]
    rw [countP_eq_sum_map vals (p i)]
    omega

/-- C3 amended: for a nonpathological record (positive bin count, nonnegative
values, positive maximum) the histogram bins span `[0, max(values)]` — not
`[min, max]` — with bin width `max / n`; every value lands in exactly one
bin, the counts sum to the number of values, bins are half-open except the
last, which is closed on the right so the maximum is counted in it. -/
theorem sino_C3_amended (s : Sinogram) (n : ℕ) (hn : 0 < n)
    (hnn : ∀ v ∈ joinVals s, 0 ≤ v) (hmax : 0 < listMax (joinVals s)) :
    get_histogram s n = some (histCounts (joinVals s) 0 (listMax (joinVals s)) n,
      histEdges 0 (listMax (joinVals s)) n) ∧
    (histEdges 0 (listMax (joinVals s)) n).getD 0 0 = 0 ∧
    (histEdges 0 (listMax (joinVals s)) n).getD n 0 = listMax (joinVals s) ∧
    (∀ i, i < n → histEdge 0 (listMax (joinVals s)) n (i + 1) -
      histEdge 0 (listMax (joinVals s)) n i = listMax (joinVals s) / n) ∧
    (∀ v ∈ joinVals s,
      (List.range n).countP (fun i => inBin 0 (listMax (joinVals s)) n i v) = 1) ∧
    (histCounts (joinVals s) 0 (listMax (joinVals s)) n).sum = (joinVals s).length ∧
    inBin 0 (listMax (joinVals s)) n (n - 1) (listMax (joinVals s)) = true := by
  have hnq : (0 : ℚ) < (n : ℚ) := by exact_mod_cast hn
  refine ⟨?_, ?_, ?_, ?_, ?_, ?_, ?_⟩
  · cases hv : joinVals s with
    | nil =>
      rw [hv] at hmax
      simp [listMax] at hmax
    | cons v vs =>
      cases n with
      | zero => omega
      | succ m =>
        rw [hv] at hmax
        unfold get_histogram
        rw [hv]
        simp only []
        rw [if_neg (not_lt.mpr hmax.le)]
        simp only [if_neg hmax.ne.symm]
  · rw [histEdges, List.getD_eq_getElem _ _ (by simp), List.getElem_map,
      List.getElem_range]
    simp [histEdge]
  · rw [histEdges, List.getD_eq_getElem _ _ (by simp), List.getElem_map,
      List.getElem_range]
    rw [histEdge_zero]
    field_simp
  · intro i _
    rw [histEdge_zero, histEdge_zero]
    push_cast
    ring
  · intro v hv
    exact inBin_unique (listMax (joinVals s)) n hn hmax v (hnn v hv)
      (le_listMax (joinVals s) v hv)
  · unfold histCounts
    rw [hist_sum_exchange (joinVals s) (List.range n)
        (fun i v => inBin 0 (listMax (joinVals s)) n i v)]
    have hone : ∀ v ∈ joinVals s,
        (List.range n).countP (fun i => inBin 0 (listMax (joinVals s)) n i v) = 1 :=
      fun v hv => inBin_unique (listMax (joinVals s)) n hn hmax v (hnn v hv)
        (le_listMax (joinVals s) v hv)
    rw [List.map_congr_left fun v hv => hone v hv]
    simp
  · unfold inBin
    rw [if_pos (by omega), histEdge_zero]
    simp only [Bool.and_eq_true, decide_eq_true_eq]
    refine ⟨?_, le_refl _⟩
    calc ((n - 1 : ℕ) : ℚ) * (listMax (joinVals s) / n)
        ≤ (n : ℚ) * (listMax (joinVals s) / n) := by
          apply mul_le_mul_of_nonneg_right
          · exact_mod_cast Nat.sub_le n 1
          · exact (div_pos hmax hnq).le
      _ = listMax (joinVals s) := by field_simp

/-- C3 amended, witness: on `[[0.5, 1.0]]` with 10 bins the histogram is the
full-range result over `(0, 1)` and its counts sum to the number of
values. -/
theorem sino_C3_witness :
    get_histogram exRecHalf 10 =
      some (histCounts (joinVals exRecHalf) 0 (listMax (joinVals exRecHalf)) 10,
        histEdges 0 (listMax (joinVals exRecHalf)) 10) ∧
    (histCounts (joinVals exRecHalf) 0 (listMax (joinVals exRecHalf)) 10).sum =
      (joinVals exRecHalf).length := by
  have h := sino_C3_amended exRecHalf 10 (by norm_num) (by decide) (by decide)
  exact ⟨h.1, h.2.2.2.2.2.1⟩

/-- C3 counterexample: the code passes `range=(0, np.max(data))`, not
`[min, max]`.  On `[[0.5, 1.0]]` the minimum value is 0.5, but the lowest bin
edge produced is 0, and the first bin `[0, 0.1)` counts nothing — under the
claim the first bin would start at `min = 0.5` and contain it. -/
theorem sino_C3_cex :
    (get_histogram exRecHalf 10).map (fun r => r.2.getD 0 0) = some 0 ∧
    (get_histogram exRecHalf 10).map (fun r => r.1.getD 0 0) = some 0 ∧
    listMin (joinVals exRecHalf) = mkRat 1 2 ∧ (0 : ℚ) ≠ mkRat 1 2 := by
  have hjv : joinVals exRecHalf = [mkRat 1 2, 1] := rfl
  have hm : listMax [mkRat 1 2, (1 : ℚ)] = 1 := rfl
  have h1 : get_histogram exRecHalf 10 =
      some (histCounts [mkRat 1 2, 1] 0 1 10, histEdges 0 1 10) := by
    unfold get_histogram
    rw [hjv]
    simp only []
    rw [hm]
    rw [if_neg (by norm_num)]
    simp only [if_neg (one_ne_zero (α := ℚ))]
  refine ⟨?_, ?_, rfl, by decide⟩
  · rw [h1]
    simp only [Option.map_some']
    rw [histEdges, List.getD_eq_getElem _ _ (by simp), List.getElem_map,
      List.getElem_range]
    norm_num [histEdge]
  · rw [h1]
    simp only [Option.map_some']
    congr 1
    rw [histCounts, List.getD_eq_getElem _ _ (by simp), List.getElem_map,
      List.getElem_range]
    simp only [List.countP_cons, List.countP_nil]
    norm_num [inBin, histEdge, Rat.mkRat_eq_div]

end Sino
